import Mathlib

/-!
Verification of `entro.py`, a passphrase-entropy analyzer and mask-based
cracking engine.

The Python source is shallowly embedded below:

* Python strings are Lean `String`s (lists of characters where character-level
  reasoning is needed), Python lists are Lean `List`s, and the two
  insertion-ordered dictionaries of the program (`self.dict`, `self.memoize`)
  are insertion-ordered association lists.
* Exceptions (`KeyError`, `ValueError`, `IndexError`) are modelled with
  `Option`.
* `hashlib.sha1(...).hexdigest()` is an external library call; it is
  abstracted as an arbitrary digest function `h : String → String`.
* `time.time()`-based timeout checks and `KeyboardInterrupt` delivery are
  modelled by Boolean oracles indexed by the iteration counter of the search
  loop (cancellation is cooperative, checked once per candidate).
* `random.choice(lst)` is modelled by an arbitrary index oracle reduced
  modulo `lst.length`.
-/

set_option maxRecDepth 100000

namespace Entro

/-! ## Mask grammar -/

/-- Python `str.split(sep)` for a single-character separator, on the
character list of the string: `''.split(sep) = ['']`, and one (possibly
empty) segment is produced between every two consecutive separators. -/
def splitOnChar (sep : Char) : List Char → List (List Char)
  | [] => [[]]
  | c :: cs =>
    match splitOnChar sep cs with
    | [] => [[c]]
    | r :: rs => if c = sep then [] :: r :: rs else (c :: r) :: rs

/-- `EntropyBase.parse_mask`: `mask.split(' ')`. -/
def parse_mask (mask : String) : List String :=
  (splitOnChar ' ' mask.toList).map String.mk

/-- The per-segment translation done by the loop body of
`EntropyBase.template_to_mask` (`'u'→'upper'`, `'l'→'lower'`, `'d'→'digit'`,
`'s'→'punc'`, anything else → `'anyc'`). -/
def code_token (t : List Char) : String :=
  if t = ['u'] then "upper"
  else if t = ['l'] then "lower"
  else if t = ['d'] then "digit"
  else if t = ['s'] then "punc"
  else "anyc"

/-- The list `mask` built by `EntropyBase.template_to_mask`:
`template.split('?')[1:]`, each segment translated by `code_token`. -/
def template_codes (template : String) : List String :=
  ((splitOnChar '?' template.toList).drop 1).map code_token

/-- `EntropyBase.template_to_mask`: `' '.join(mask)`. -/
def template_to_mask (template : String) : String :=
  String.intercalate " " (template_codes template)

/-! ## Candidate enumeration -/

/-- `''.join(map(str, perm))`: the elements are already strings, so `map str`
is the identity and the join is plain concatenation. -/
def joinStr : List String → String
  | [] => ""
  | s :: ts => s ++ joinStr ts

/-- `itertools.product(*lol)` as a list of tuples, in odometer order (the
last position varies fastest). -/
def listProd : List (List String) → List (List String)
  | [] => [[]]
  | l :: ls => l.flatMap (fun x => (listProd ls).map (fun t => x :: t))

/-! ## Memoized class resolution -/

/-- The `self.memoize` dictionary: class token ↦ member list. -/
abbrev Memo := List (String × List String)

/-- The memoize-or-compute resolution loop shared by `iter_crack` and
`gen_pass`: for each mask position `pos`, if `pos not in self.memoize` then
`self.memoize[pos] = self.get_all_pos(pos)`, and `self.memoize[pos]` is
collected into `lol`.  `getAll` is the dynamically dispatched
`self.get_all_pos`. -/
def resolveMask (getAll : String → List String) : Memo → List String → Memo × List (List String)
  | memo, [] => (memo, [])
  | memo, t :: ts =>
    match memo.lookup t with
    | some l =>
      let r := resolveMask getAll memo ts
      (r.1, l :: r.2)
    | none =>
      let l := getAll t
      let r := resolveMask getAll ((t, l) :: memo) ts
      (r.1, l :: r.2)

/-! ## The cracking search -/

/-- The candidate loop of `EntropyBase.iter_crack`.  `target` is
`Union[Set, str]`: `Sum.inl` is a target hash set (modelled as a list queried
by membership), `Sum.inr` a single target digest.  The wall-clock condition
`timeout != 0 and (time.time() - start) >= timeout` at iteration `i` is
modelled by the oracle `timeoutF i` (identically false when `timeout == 0`);
a `KeyboardInterrupt` delivered at the top of iteration `i` is modelled by
`intr i`, and the `except KeyboardInterrupt` handler returns the accumulated
`crack_count`.  `cnt` is `crack_count`. -/
def crackLoop (h : String → String) (target : List String ⊕ String)
    (timeoutF intr : Nat → Bool) : Nat → Nat → List String → String ⊕ Nat
  | _, cnt, [] => Sum.inr cnt
  | i, cnt, c :: cs =>
    if intr i then Sum.inr cnt
    else if timeoutF i then Sum.inr cnt
    else
      match target with
      | Sum.inl tset =>
        crackLoop h target timeoutF intr (i + 1) (if h c ∈ tset then cnt + 1 else cnt) cs
      | Sum.inr t =>
        if h c = t then Sum.inl c else crackLoop h target timeoutF intr (i + 1) cnt cs

/-- `EntropyBase.iter_crack`: resolve the parsed mask through the memoize
cache, enumerate `itertools.product(*lol)`, join each tuple, and run the
search loop.  `h` abstracts `hashlib.sha1(...).hexdigest()`.  The result is
the final cache together with either the recovered plaintext (`Sum.inl`) or
the match count (`Sum.inr`). -/
def iter_crack (h : String → String) (getAll : String → List String) (memo : Memo)
    (target : List String ⊕ String) (timeoutF intr : Nat → Bool) (mask : String) :
    Memo × (String ⊕ Nat) :=
  let r := resolveMask getAll memo (parse_mask mask)
  (r.1, crackLoop h target timeoutF intr 0 0 ((listProd r.2).map joinStr))

/-! ## Random passphrase generation -/

/-- The drawing loop of `gen_pass`: `random.choice(lst)` is modelled as
`lst[pick i % lst.length]` for an arbitrary index oracle `pick`
(`random.choice` on an empty list raises `IndexError`, modelled as `none`;
`i` is the mask position). -/
def chooseUnits (pick : Nat → Nat) : Nat → List (List String) → Option (List String)
  | _, [] => some []
  | i, l :: ls =>
    match l.get? (pick i % l.length) with
    | none => none
    | some u => (chooseUnits pick (i + 1) ls).map (fun us => u :: us)

/-- `EntropyBase.gen_pass`: resolve each mask position through the memoize
cache (the same cache discipline as `iter_crack`), draw one member per
position, and concatenate with `+=`. -/
def gen_pass (getAll : String → List String) (memo : Memo) (pick : Nat → Nat)
    (mask : String) : Option String :=
  (chooseUnits pick 0 (resolveMask getAll memo (parse_mask mask)).2).map joinStr

/-! ## The `PasswordPattern` character classes -/

/-- `list(s)` for a Python string `s`: its characters as one-character
strings. -/
def charClass (cs : List Char) : List String := cs.map Char.toString

/-- `string.ascii_lowercase`. -/
def lowerChars : List Char := "abcdefghijklmnopqrstuvwxyz".toList

/-- `string.ascii_uppercase`. -/
def upperChars : List Char := "ABCDEFGHIJKLMNOPQRSTUVWXYZ".toList

/-- `string.digits`. -/
def digitChars : List Char := "0123456789".toList

/-- `string.punctuation`. -/
def puncChars : List Char := "!\"#$%&\x27()*+,-./:;<=>?@[\\]^_\x60\x7b|\x7d~".toList

/-- The memoize table installed by `PasswordPattern.__init__`
(`letter = ascii_lowercase + ascii_uppercase`,
`any = punc + digit + letter`; list concatenation of one-character strings
is `charClass` of the concatenated character lists). -/
def ppMemoList : Memo :=
  [("lower", charClass lowerChars),
   ("upper", charClass upperChars),
   ("punc", charClass puncChars),
   ("digit", charClass digitChars),
   ("letter", charClass (lowerChars ++ upperChars)),
   ("any", charClass (puncChars ++ (digitChars ++ (lowerChars ++ upperChars))))]

/-- Lookup in a freshly constructed `PasswordPattern`'s memoize table. -/
def pp_memoize (t : String) : Option (List String) := ppMemoList.lookup t

/-- `PasswordPattern.calculate_security`: the product of
`len(self.memoize[e])` over the parsed mask (a token absent from the table is
a Python `KeyError`, modelled as `none`).  The numeric return value is what
the method passes to, and receives back from, the base-class printer. -/
def pp_calculate_security (mask : String) : Option Nat :=
  (parse_mask mask).foldl
    (fun acc t => acc.bind (fun a => (pp_memoize t).map (fun l => a * l.length)))
    (some 1)

/-! ## The `EntropyAnalyzer` lexical catalog -/

/-- The analyzer dictionary `self.dict`: an insertion-ordered association of
each word with the list of `part_of_speech` fields of its `definitions` (the
only field the code ever reads from the JSON values). -/
abbrev Catalog := List (String × List String)

/-- `EntropyAnalyzer.get_pos`: the set of parts of speech appearing among a
word's definitions.  Python's `list(set(...))` has arbitrary order, modelled
as `dedup`; only membership and once-per-word counting are ever used.  A
missing word is a `KeyError`; every caller below looks up words taken from
the dictionary itself, so the `[]` default is unreachable there. -/
def get_pos (D : Catalog) (w : String) : List String :=
  ((D.lookup w).getD []).dedup

/-- `EntropyAnalyzer.get_all_pos`: the words whose parts of speech contain
`pos` (every word when `pos == "any"`), in dictionary order. -/
def get_all_pos (D : Catalog) (pos : String) : List String :=
  (D.filter (fun e => pos == "any" || decide (pos ∈ get_pos D e.1))).map Prod.fst

/-- The fourteen category keys preset in `get_num_pos`'s `pos_count`. -/
def posCountKeys : List String :=
  ["noun", "verb", "adverb", "adjective", "pronoun", "conjunction", "preposition",
   "interjection", "anyc", "punc", "digit", "lower", "upper", "letter"]

/-- `EntropyAnalyzer.get_num_pos`, modelled as the lookup function of the
returned dict: iterating `sub` (the passed sub-catalog, `self.dict` when the
argument is `None`) and incrementing the preset key `t` once per word whose
`get_pos` (looked up in the full `self.dict`) contains `t`; the synthetic
`'any'` entry is the sub-catalog size.  A key that was never preset is a
`KeyError` for the caller, modelled as `none`. -/
def get_num_pos (full sub : Catalog) (t : String) : Option Nat :=
  if t = "any" then some sub.length
  else if t ∈ posCountKeys then
    some (sub.foldl (fun acc e => if t ∈ get_pos full e.1 then acc + 1 else acc) 0)
  else none

/-- `EntropyAnalyzer.calculate_security`: the product of `pos_count[pos]`
over the parsed mask, with `pos_count = self.get_num_pos()`.  The numeric
return value is what is passed to the base-class printer and returned. -/
def analyzer_calculate_security (D : Catalog) (mask : String) : Option Nat :=
  (parse_mask mask).foldl
    (fun acc t => acc.bind (fun a => (get_num_pos D D t).map (fun c => a * c)))
    (some 1)

/-- The mutable state of one `EntropyAnalyzer` instance: the catalog and the
memoization cache. -/
structure AnalyzerState where
  dict : Catalog
  memoize : Memo

/-- `EntropyAnalyzer.filter_dict`: build `fdict` from the entries whose key
satisfies `filter_func`; with `cull` replace `self.dict` with it and reset
`self.memoize` (returning Python `None`), otherwise return `fdict` leaving
the state untouched. -/
def filter_dict (f : String → Bool) (cull : Bool) (st : AnalyzerState) :
    AnalyzerState × Option Catalog :=
  let fdict := st.dict.filter (fun e => f e.1)
  if cull then ({ dict := fdict, memoize := [] }, none)
  else (st, some fdict)

/-- One memoize-or-compute resolution step over the analyzer state (the step
`iter_crack` and `gen_pass` perform per mask position, with
`get_all_pos` over the live catalog as the computing path). -/
def resolveToken (st : AnalyzerState) (t : String) : AnalyzerState × List String :=
  match st.memoize.lookup t with
  | some l => (st, l)
  | none =>
    let l := get_all_pos st.dict t
    ({ st with memoize := (t, l) :: st.memoize }, l)

/-! ## Entropy arithmetic -/

/-- `EntropyBase.poss_to_bits`: `math.log(poss)/math.log(2.0)` over the
reals; `math.log` raises `ValueError` on a non-positive argument, modelled as
`none`. -/
noncomputable def poss_to_bits (poss : ℤ) : Option ℝ :=
  if poss ≤ 0 then none else some (Real.log poss / Real.log 2)

/-! ## Lemmas about `splitOnChar` -/

lemma splitOnChar_ne_nil (sep : Char) (l : List Char) : splitOnChar sep l ≠ [] := by
  cases l with
  | nil => simp [splitOnChar]
  | cons c cs =>
    rcases h : splitOnChar sep cs with _ | ⟨r, rs⟩
    · simp [splitOnChar, h]
    · simp only [splitOnChar, h]
      split <;> simp

lemma splitOnChar_append_of_not_mem (sep : Char) (a b : List Char)
    (h : ∀ c ∈ a, c ≠ sep) :
    ∃ r rs, splitOnChar sep b = r :: rs ∧ splitOnChar sep (a ++ b) = (a ++ r) :: rs := by
  induction a with
  | nil =>
    rcases hb : splitOnChar sep b with _ | ⟨r, rs⟩
    · exact absurd hb (splitOnChar_ne_nil sep b)
    · exact ⟨r, rs, rfl, by simpa using hb⟩
  | cons c a ih =>
    obtain ⟨r, rs, hb, hab⟩ := ih (fun x hx => h x (by simp [hx]))
    refine ⟨r, rs, hb, ?_⟩
    have hc : ¬(c = sep) := h c (by simp)
    simp [splitOnChar, hab, hc]

lemma length_splitOnChar (sep : Char) (l : List Char) :
    (splitOnChar sep l).length = l.countP (fun c => decide (c = sep)) + 1 := by
  induction l with
  | nil => rfl
  | cons c cs ih =>
    rcases h : splitOnChar sep cs with _ | ⟨r, rs⟩
    · exact absurd h (splitOnChar_ne_nil sep cs)
    · rw [h] at ih
      simp only [List.length_cons] at ih
      by_cases hc : c = sep <;>
        simp only [splitOnChar, h, hc, if_true, if_false, List.length_cons,
          List.countP_cons] <;>
        simp [hc] <;> omega

/-! ## C10: one token per `?`-segment -/

/-- C10: `template_to_mask` turns each maximal segment between consecutive
`?` characters into a single token — the token list has exactly one entry per
`?` in the template, a multi-character segment such as `lx` yields exactly
one `anyc` token, and any segment other than `u`, `l`, `d`, `s` maps to
`anyc`. -/
theorem template_segments_spec :
    (∀ s : String, (template_codes s).length = s.toList.countP (fun c => decide (c = '?'))) ∧
    template_to_mask "?lx?d" = "anyc digit" ∧
    (∀ t : List Char, t ≠ ['u'] → t ≠ ['l'] → t ≠ ['d'] → t ≠ ['s'] →
      code_token t = "anyc") := by
  refine ⟨?_, by decide, ?_⟩
  · intro s
    simp [template_codes, length_splitOnChar]
  · intro t h1 h2 h3 h4
    simp [code_token, h1, h2, h3, h4]

/-- Witness for C10 at the concrete segment `lx` (a class code followed by
literal text). -/
theorem template_segments_spec_witness : code_token ['l', 'x'] = "anyc" :=
  template_segments_spec.2.2 ['l', 'x'] (by decide) (by decide) (by decide) (by decide)

/-! ## C7: hashcat template translation -/

/-- C7: `template_to_mask` maps the codes `u`, `l`, `d`, `s` to `upper`,
`lower`, `digit`, `punc`, any other code to `anyc`, joins the tokens with
single spaces, discards any leading literal before the first `?`, and in
particular translates `?l?l?d?d` to `lower lower digit digit`. -/
theorem template_to_mask_spec :
    template_to_mask "?u" = "upper" ∧ template_to_mask "?l" = "lower" ∧
    template_to_mask "?d" = "digit" ∧ template_to_mask "?s" = "punc" ∧
    template_to_mask "?x" = "anyc" ∧
    (∀ lit rest : String, (∀ c ∈ lit.toList, c ≠ '?') →
      template_to_mask (lit ++ rest) = template_to_mask rest) ∧
    template_to_mask "?l?l?d?d" = "lower lower digit digit" := by
  refine ⟨by decide, by decide, by decide, by decide, by decide, ?_, by decide⟩
  intro lit rest h
  obtain ⟨r, rs, hb, hab⟩ := splitOnChar_append_of_not_mem '?' lit.toList rest.toList h
  have htl : (lit ++ rest).toList = lit.toList ++ rest.toList := String.data_append lit rest
  rw [template_to_mask, template_to_mask, template_codes, template_codes, htl, hab, hb]
  simp

/-- Witness for C7: a concrete leading literal is discarded. -/
theorem template_to_mask_spec_witness :
    template_to_mask ("ab" ++ "?l") = template_to_mask "?l" :=
  template_to_mask_spec.2.2.2.2.2.1 "ab" "?l" (by decide)

/-! ## C8: bits of entropy -/

/-- C8: `poss_to_bits` computes the base-2 logarithm of its argument for
every count ≥ 1, and fails (the `ValueError` of `math.log`, modelled as
`none`) for every count ≤ 0. -/
theorem poss_to_bits_spec (poss : ℤ) :
    (1 ≤ poss → poss_to_bits poss = some (Real.logb 2 poss)) ∧
    (poss ≤ 0 → poss_to_bits poss = none) := by
  constructor
  · intro h
    rw [poss_to_bits, if_neg (by omega)]
    simp [Real.logb]
  · intro h
    rw [poss_to_bits, if_pos h]

/-- Witness for C8 at the counts 2 and 0. -/
theorem poss_to_bits_spec_witness :
    poss_to_bits 2 = some (Real.logb 2 ((2 : ℤ) : ℝ)) ∧ poss_to_bits 0 = none :=
  ⟨(poss_to_bits_spec 2).1 (by norm_num), (poss_to_bits_spec 0).2 le_rfl⟩

/-! ## C6: filtering the catalog -/

/-- C6: with `cull` (commit) true, `filter_dict` replaces the catalog with
exactly the entries whose key satisfies the predicate and empties the
memoization cache, so a subsequent resolution recomputes from the filtered
catalog; with `cull` false it returns the filtered subset and leaves both
the catalog and the cache unchanged. -/
theorem filter_dict_spec (f : String → Bool) (st : AnalyzerState) (t : String) :
    (filter_dict f true st).1.dict = st.dict.filter (fun e => f e.1) ∧
    (∀ e, e ∈ (filter_dict f true st).1.dict ↔ e ∈ st.dict ∧ f e.1 = true) ∧
    (filter_dict f true st).1.memoize = [] ∧
    (filter_dict f true st).2 = none ∧
    (resolveToken (filter_dict f true st).1 t).2 =
      get_all_pos (st.dict.filter (fun e => f e.1)) t ∧
    filter_dict f false st = (st, some (st.dict.filter (fun e => f e.1))) := by
  refine ⟨rfl, ?_, rfl, rfl, rfl, rfl⟩
  intro e
  exact List.mem_filter

/-! ## Lemmas about the search loop -/

lemma crackLoop_single (h : String → String) (t : String) :
    ∀ (cs : List String) (i : Nat),
      crackLoop h (Sum.inr t) (fun _ => false) (fun _ => false) i 0 cs =
        match cs.find? (fun c => decide (h c = t)) with
        | some c => Sum.inl c
        | none => Sum.inr 0 := by
  intro cs
  induction cs with
  | nil => intro i; rfl
  | cons c cs ih =>
    intro i
    by_cases hc : h c = t
    · simp [crackLoop, hc, List.find?]
    · simp [crackLoop, hc, List.find?, ih (i + 1)]

lemma crackLoop_set (h : String → String) (T : List String) :
    ∀ (cs : List String) (i cnt : Nat),
      crackLoop h (Sum.inl T) (fun _ => false) (fun _ => false) i cnt cs =
        Sum.inr (cnt + cs.countP (fun c => decide (h c ∈ T))) := by
  intro cs
  induction cs with
  | nil => intro i cnt; simp [crackLoop]
  | cons c cs ih =>
    intro i cnt
    by_cases hc : h c ∈ T
    · simp only [crackLoop, hc, if_true, if_false, ih (i + 1), List.countP_cons]
      simp [hc]
      omega
    · simp only [crackLoop, hc, if_true, if_false, ih (i + 1), List.countP_cons]
      simp [hc]

lemma crackLoop_set_intr (h : String → String) (T : List String) (k : Nat) :
    ∀ (cs : List String) (i cnt : Nat), i ≤ k →
      crackLoop h (Sum.inl T) (fun _ => false) (fun j => j == k) i cnt cs =
        Sum.inr (cnt + (cs.take (k - i)).countP (fun c => decide (h c ∈ T))) := by
  intro cs
  induction cs with
  | nil => intro i cnt _; simp [crackLoop]
  | cons c cs ih =>
    intro i cnt hik
    by_cases hk : i = k
    · subst hk
      simp [crackLoop, Nat.sub_self]
    · have h1 : i + 1 ≤ k := by omega
      have h2 : k - i = (k - (i + 1)) + 1 := by omega
      have hbeq : (i == k) = false := by simp [hk]
      rw [h2]
      by_cases hc : h c ∈ T
      · simp only [crackLoop, hbeq, hc, if_true, if_false, Bool.false_eq_true,
          ih (i + 1) _ h1, List.take_succ_cons, List.countP_cons]
        simp [hc]
        omega
      · simp only [crackLoop, hbeq, hc, if_true, if_false, Bool.false_eq_true,
          ih (i + 1) _ h1, List.take_succ_cons, List.countP_cons]
        simp [hc]

lemma crackLoop_single_intr (h : String → String) (t : String) (k : Nat) :
    ∀ (cs : List String) (i cnt : Nat), i ≤ k →
      crackLoop h (Sum.inr t) (fun _ => false) (fun j => j == k) i cnt cs =
        match (cs.take (k - i)).find? (fun c => decide (h c = t)) with
        | some c => Sum.inl c
        | none => Sum.inr cnt := by
  intro cs
  induction cs with
  | nil => intro i cnt _; simp [crackLoop]
  | cons c cs ih =>
    intro i cnt hik
    by_cases hk : i = k
    · subst hk
      simp [crackLoop, Nat.sub_self]
    · have h1 : i + 1 ≤ k := by omega
      have h2 : k - i = (k - (i + 1)) + 1 := by omega
      have hbeq : (i == k) = false := by simp [hk]
      rw [h2]
      by_cases hc : h c = t
      · simp [crackLoop, hbeq, hc, List.take_succ_cons, List.find?]
      · simp [crackLoop, hbeq, hc, List.take_succ_cons, List.find?, ih (i + 1) cnt h1]

/-! ## C3: single-target search returns the first match -/

/-- C3: in single-target mode (with no timeout and no interrupt) the search
returns the first enumerated candidate whose digest equals the target, and
the count 0 when no candidate matches. -/
theorem iter_crack_single_spec (h : String → String) (getAll : String → List String)
    (memo : Memo) (t : String) (mask : String) :
    (iter_crack h getAll memo (Sum.inr t) (fun _ => false) (fun _ => false) mask).2 =
      match ((listProd (resolveMask getAll memo (parse_mask mask)).2).map joinStr).find?
          (fun c => decide (h c = t)) with
      | some c => Sum.inl c
      | none => Sum.inr 0 := by
  rw [iter_crack]
  exact crackLoop_single h t _ 0

/-! ## C4: set-mode search counts all matches -/

/-- C4: in set mode (with no timeout and no interrupt) the search never
stops early: it enumerates every candidate and returns the number of
enumerated candidates whose digest belongs to the target set. -/
theorem iter_crack_set_spec (h : String → String) (getAll : String → List String)
    (memo : Memo) (T : List String) (mask : String) :
    (iter_crack h getAll memo (Sum.inl T) (fun _ => false) (fun _ => false) mask).2 =
      Sum.inr (((listProd (resolveMask getAll memo (parse_mask mask)).2).map joinStr).countP
        (fun c => decide (h c ∈ T))) := by
  rw [iter_crack]
  have := crackLoop_set h T
    ((listProd (resolveMask getAll memo (parse_mask mask)).2).map joinStr) 0 0
  simpa using this

/-! ## C5: interrupts return the partial count -/

/-- C5: an interrupt delivered at the top of iteration `k` of the search
loop is caught and converted into a normal return: in set mode the result is
the match count accumulated over the first `k` candidates, and in
single-target mode the result is the matching candidate if one was found
among the first `k` candidates and the accumulated count 0 otherwise —
never an unhandled fault. -/
theorem iter_crack_interrupt_spec (h : String → String) (getAll : String → List String)
    (memo : Memo) (T : List String) (t : String) (mask : String) (k : Nat) :
    (iter_crack h getAll memo (Sum.inl T) (fun _ => false) (fun i => i == k) mask).2 =
      Sum.inr ((((listProd (resolveMask getAll memo (parse_mask mask)).2).map joinStr).take
        k).countP (fun c => decide (h c ∈ T))) ∧
    (iter_crack h getAll memo (Sum.inr t) (fun _ => false) (fun i => i == k) mask).2 =
      match (((listProd (resolveMask getAll memo (parse_mask mask)).2).map joinStr).take
          k).find? (fun c => decide (h c = t)) with
      | some c => Sum.inl c
      | none => Sum.inr 0 := by
  constructor
  · rw [iter_crack]
    have := crackLoop_set_intr h T k
      ((listProd (resolveMask getAll memo (parse_mask mask)).2).map joinStr) 0 0 (Nat.zero_le k)
    simpa using this
  · rw [iter_crack]
    have := crackLoop_single_intr h t k
      ((listProd (resolveMask getAll memo (parse_mask mask)).2).map joinStr) 0 0 (Nat.zero_le k)
    simpa using this

/-! ## C2: the count path agrees with the resolver -/

lemma foldl_count {α : Type} (p : α → Prop) [DecidablePred p] :
    ∀ (l : List α) (acc : Nat),
      l.foldl (fun a e => if p e then a + 1 else a) acc
        = acc + l.countP (fun e => decide (p e)) := by
  intro l
  induction l with
  | nil => intro acc; simp
  | cons e l ih =>
    intro acc
    by_cases he : p e <;> simp [he, ih, List.countP_cons] <;> omega

lemma get_num_pos_eq_length (D : Catalog) (t : String)
    (ht : t ∈ posCountKeys ∨ t = "any") :
    get_num_pos D D t = some ((get_all_pos D t).length) := by
  rcases ht with ht | rfl
  · have hne : t ≠ "any" := by
      intro hh
      subst hh
      revert ht
      decide
    have hbeq : (t == "any") = false := beq_eq_false_iff_ne.mpr hne
    rw [get_num_pos, if_neg hne, if_pos ht, get_all_pos, List.length_map,
      ← List.countP_eq_length_filter, foldl_count (fun e => t ∈ get_pos D e.1) D 0]
    rw [Nat.zero_add]
    congr 1
    exact List.countP_congr (fun e _ => by simp [hbeq])
  · rw [get_num_pos, if_pos rfl, get_all_pos]
    have h1 : D.filter (fun e => ("any" == "any") || decide (("any" : String) ∈ get_pos D e.1))
        = D := by
      rw [List.filter_eq_self]
      intro e _
      simp
    rw [h1, List.length_map]

lemma analyzer_calc_prod (D : Catalog) :
    ∀ (ts : List String), (∀ t ∈ ts, t ∈ posCountKeys ∨ t = "any") →
      ∀ a : Nat,
        ts.foldl (fun acc t => acc.bind (fun x => (get_num_pos D D t).map (fun c => x * c)))
          (some a) = some (a * (ts.map (fun t => (get_all_pos D t).length)).prod) := by
  intro ts
  induction ts with
  | nil =>
    intro _ a
    simp
  | cons t ts ih =>
    intro h a
    rw [List.foldl_cons, get_num_pos_eq_length D t (h t (by simp))]
    have hstep : (Option.bind (some a)
        (fun x => ((some ((get_all_pos D t).length)).map (fun c => x * c))))
        = some (a * (get_all_pos D t).length) := rfl
    rw [hstep, ih (fun x hx => h x (by simp [hx])) (a * (get_all_pos D t).length),
      List.map_cons, List.prod_cons, mul_assoc]

/-- C2: for every mask whose tokens are all recognized category keys (or
`any`), the possibility count of `EntropyAnalyzer.calculate_security` — the
product of the `get_num_pos` category counts — equals the product over the
mask's tokens of the length of the member list `get_all_pos` computes for
that token over the same catalog. -/
theorem analyzer_calculate_security_spec (D : Catalog) (mask : String)
    (h : ∀ t ∈ parse_mask mask, t ∈ posCountKeys ∨ t = "any") :
    analyzer_calculate_security D mask =
      some (((parse_mask mask).map (fun t => (get_all_pos D t).length)).prod) := by
  rw [analyzer_calculate_security, analyzer_calc_prod D _ h 1, one_mul]

/-- Witness for C2 on a concrete two-word catalog and the mask
`noun verb`. -/
theorem analyzer_calculate_security_spec_witness :
    analyzer_calculate_security [("cat", ["noun"]), ("run", ["verb", "noun"])] "noun verb" =
      some (((parse_mask "noun verb").map
        (fun t => (get_all_pos [("cat", ["noun"]), ("run", ["verb", "noun"])] t).length)).prod) :=
  analyzer_calculate_security_spec [("cat", ["noun"]), ("run", ["verb", "noun"])] "noun verb"
    (by decide)

/-! ## C9: random passphrase generation -/

lemma resolveMask_length (getAll : String → List String) :
    ∀ (ts : List String) (memo : Memo),
      (resolveMask getAll memo ts).2.length = ts.length := by
  intro ts
  induction ts with
  | nil => intro memo; rfl
  | cons t ts ih =>
    intro memo
    simp only [resolveMask]
    rcases h : memo.lookup t with _ | l
    · simp [h, ih]
    · simp [h, ih]

lemma chooseUnits_spec (pick : Nat → Nat) :
    ∀ (ls : List (List String)) (i : Nat), (∀ l ∈ ls, l ≠ []) →
      ∃ us, chooseUnits pick i ls = some us ∧ List.Forall₂ (fun u l => u ∈ l) us ls := by
  intro ls
  induction ls with
  | nil =>
    intro i _
    exact ⟨[], rfl, List.Forall₂.nil⟩
  | cons l ls ih =>
    intro i h
    have hl : l ≠ [] := h l (by simp)
    have hlen : 0 < l.length := List.length_pos.mpr hl
    have hidx : pick i % l.length < l.length := Nat.mod_lt _ hlen
    have hu : l[pick i % l.length]? = some l[pick i % l.length] :=
      List.getElem?_eq_getElem hidx
    obtain ⟨us, hus, hmem⟩ := ih (i + 1) (fun x hx => h x (by simp [hx]))
    refine ⟨l[pick i % l.length] :: us, ?_, List.Forall₂.cons (List.getElem_mem hidx) hmem⟩
    simp [chooseUnits, hu, hus]

lemma joinStr_length : ∀ us : List String,
    (joinStr us).length = (us.map String.length).sum := by
  intro us
  induction us with
  | nil => rfl
  | cons u us ih => simp [joinStr, String.length_append, ih]

/-- The units actually drawn by `gen_pass` (the `random.choice` results, one
per mask position). -/
def chosen (getAll : String → List String) (memo : Memo) (pick : Nat → Nat)
    (mask : String) : List String :=
  (chooseUnits pick 0 (resolveMask getAll memo (parse_mask mask)).2).getD []

/-- Counterexample for C9 as stated: over the analyzer catalog containing
the three-letter word `cat` as a noun, the mask `noun` resolves to the
non-empty member list `["cat"]`, yet `gen_pass` returns `"cat"`, whose
length 3 differs from the mask's token count 1. -/
theorem gen_pass_counterexample :
    (resolveMask (get_all_pos [("cat", ["noun"])]) [] (parse_mask "noun")).2 = [["cat"]] ∧
    gen_pass (get_all_pos [("cat", ["noun"])]) [] (fun _ => 0) "noun" = some "cat" ∧
    ¬ (gen_pass (get_all_pos [("cat", ["noun"])]) [] (fun _ => 0) "noun").map String.length
        = some ((parse_mask "noun").length) :=
  ⟨by decide, by decide, by decide⟩

/-- C9 (amended): for every mask whose tokens all resolve to non-empty
member lists, `gen_pass` returns the concatenation of one unit per mask
position, the unit at each position drawn from that position's resolved
member list; the string's length is the sum of the lengths of the drawn
units (equal to the token count exactly when every drawn unit is a single
character, as in the `PasswordPattern` classes). -/
theorem gen_pass_spec (getAll : String → List String) (memo : Memo) (pick : Nat → Nat)
    (mask : String)
    (h : ∀ l ∈ (resolveMask getAll memo (parse_mask mask)).2, l ≠ []) :
    gen_pass getAll memo pick mask = some (joinStr (chosen getAll memo pick mask)) ∧
    (chosen getAll memo pick mask).length = (parse_mask mask).length ∧
    List.Forall₂ (fun u l => u ∈ l) (chosen getAll memo pick mask)
      (resolveMask getAll memo (parse_mask mask)).2 ∧
    (joinStr (chosen getAll memo pick mask)).length
      = ((chosen getAll memo pick mask).map String.length).sum := by
  obtain ⟨us, hus, hmem⟩ :=
    chooseUnits_spec pick (resolveMask getAll memo (parse_mask mask)).2 0 h
  have hch : chosen getAll memo pick mask = us := by
    rw [chosen, hus]
    rfl
  refine ⟨?_, ?_, ?_, joinStr_length _⟩
  · rw [gen_pass, hus, hch]
    rfl
  · rw [hch, hmem.length_eq, resolveMask_length]
  · rw [hch]
    exact hmem

/-- Witness for C9 (amended) on a concrete one-member resolver. -/
theorem gen_pass_spec_witness :
    gen_pass (fun _ => ["x"]) [] (fun _ => 0) "lower"
        = some (joinStr (chosen (fun _ => ["x"]) [] (fun _ => 0) "lower")) ∧
    (chosen (fun _ => ["x"]) [] (fun _ => 0) "lower").length = (parse_mask "lower").length ∧
    List.Forall₂ (fun u l => u ∈ l) (chosen (fun _ => ["x"]) [] (fun _ => 0) "lower")
      (resolveMask (fun _ => ["x"]) [] (parse_mask "lower")).2 ∧
    (joinStr (chosen (fun _ => ["x"]) [] (fun _ => 0) "lower")).length
      = ((chosen (fun _ => ["x"]) [] (fun _ => 0) "lower").map String.length).sum :=
  gen_pass_spec (fun _ => ["x"]) [] (fun _ => 0) "lower" (by decide)

/-! ## C1: possibility count and duplicate-free enumeration -/

lemma sum_map_const {α : Type} (l : List α) (k : Nat) :
    (l.map (fun _ => k)).sum = l.length * k := by
  induction l with
  | nil => simp
  | cons a l ih =>
    simp [ih]
    ring

lemma length_listProd : ∀ ls : List (List String),
    (listProd ls).length = (ls.map List.length).prod := by
  intro ls
  induction ls with
  | nil => rfl
  | cons l ls ih =>
    simp only [listProd, List.length_flatMap, List.map_cons, List.prod_cons]
    have h1 : (List.map (List.length ∘ fun x => List.map (fun t => x :: t) (listProd ls)) l)
        = List.map (fun _ => (ls.map List.length).prod) l := by
      apply List.map_congr_left
      intro x _
      simp [Function.comp, ih]
    rw [h1, sum_map_const]

lemma string_data_inj {a b : String} (h : a.data = b.data) : a = b := by
  cases a
  cases b
  exact congrArg String.mk h

lemma string_append_left_cancel {x s t : String} (h : x ++ s = x ++ t) : s = t := by
  have hd : (x ++ s).data = (x ++ t).data := by rw [h]
  rw [String.data_append, String.data_append] at hd
  exact string_data_inj (List.append_cancel_left hd)

lemma length_one_data (s : String) (h : s.length = 1) : ∃ c, s.data = [c] := by
  have hlen : s.data.length = 1 := h
  exact List.length_eq_one.mp hlen

lemma append_head_eq {x y s t : String} (hx : x.length = 1) (hy : y.length = 1)
    (h : x ++ s = y ++ t) : x = y ∧ s = t := by
  obtain ⟨c, hc⟩ := length_one_data x hx
  obtain ⟨d, hd⟩ := length_one_data y hy
  have hdata : (x ++ s).data = (y ++ t).data := by rw [h]
  rw [String.data_append, String.data_append, hc, hd,
    List.singleton_append, List.singleton_append] at hdata
  obtain ⟨h1, h2⟩ := List.cons_eq_cons.mp hdata
  exact ⟨string_data_inj (by rw [hc, hd, h1]), string_data_inj h2⟩

lemma nodup_flatMap_append (J : List String) (hJ : J.Nodup) :
    ∀ l : List String, l.Nodup → (∀ s ∈ l, s.length = 1) →
      (l.flatMap (fun x => J.map (fun s => x ++ s))).Nodup := by
  intro l
  induction l with
  | nil =>
    intro _ _
    simp
  | cons x l ih =>
    intro hnd hlen
    rw [List.flatMap_cons, List.nodup_append]
    obtain ⟨hx, hl⟩ := List.nodup_cons.mp hnd
    refine ⟨hJ.map (fun a b hab => string_append_left_cancel hab),
      ih hl (fun s hs => hlen s (by simp [hs])), ?_⟩
    intro a ha hb
    obtain ⟨s, hsJ, rfl⟩ := List.mem_map.mp ha
    obtain ⟨y, hy, hyy⟩ := List.mem_flatMap.mp hb
    obtain ⟨s2, hs2, heq⟩ := List.mem_map.mp hyy
    have hx1 : x.length = 1 := hlen x (by simp)
    have hy1 : y.length = 1 := hlen y (by simp [hy])
    obtain ⟨hyx, -⟩ := append_head_eq hy1 hx1 heq
    exact hx (hyx ▸ hy)

lemma joinProd_nodup : ∀ ls : List (List String),
    (∀ l ∈ ls, l.Nodup ∧ ∀ s ∈ l, s.length = 1) →
    ((listProd ls).map joinStr).Nodup := by
  intro ls
  induction ls with
  | nil =>
    intro _
    simp [listProd, joinStr]
  | cons l ls ih =>
    intro h
    have hmap : (listProd (l :: ls)).map joinStr
        = l.flatMap (fun x => ((listProd ls).map joinStr).map (fun s => x ++ s)) := by
      simp only [listProd, List.map_flatMap, List.map_map]
      rfl
    rw [hmap]
    exact nodup_flatMap_append _ (ih (fun l2 hl2 => h l2 (by simp [hl2])))
      l (h l (by simp)).1 (h l (by simp)).2

lemma pp_memoize_spec (t : String) (l : List String) (h : pp_memoize t = some l) :
    l.Nodup ∧ ∀ s ∈ l, s.length = 1 := by
  rw [pp_memoize, ppMemoList] at h
  simp only [List.lookup] at h
  split at h
  · obtain rfl := Option.some.inj h
    exact ⟨by decide, by decide⟩
  · split at h
    · obtain rfl := Option.some.inj h
      exact ⟨by decide, by decide⟩
    · split at h
      · obtain rfl := Option.some.inj h
        exact ⟨by decide, by decide⟩
      · split at h
        · obtain rfl := Option.some.inj h
          exact ⟨by decide, by decide⟩
        · split at h
          · obtain rfl := Option.some.inj h
            exact ⟨by decide, by decide⟩
          · split at h
            · obtain rfl := Option.some.inj h
              exact ⟨by decide, by decide⟩
            · exact absurd h (by simp)

lemma pp_calc_prod :
    ∀ (ts : List String) (ls : List (List String)),
      List.Forall₂ (fun t l => pp_memoize t = some l) ts ls →
      ∀ a : Nat,
        ts.foldl (fun acc t => acc.bind (fun x => (pp_memoize t).map (fun l => x * l.length)))
          (some a) = some (a * (ls.map List.length).prod) := by
  intro ts ls h
  induction h with
  | nil =>
    intro a
    simp
  | @cons t l ts2 ls2 h1 h2 ih =>
    intro a
    rw [List.foldl_cons, h1]
    have hstep : ((some a).bind fun x => Option.map (fun l2 => x * l2.length) (some l))
        = some (a * l.length) := rfl
    rw [hstep, ih (a * l.length), List.map_cons, List.prod_cons, mul_assoc]

lemma resolveMask_of_cached (getAll : String → List String) :
    ∀ (ts : List String) (ls : List (List String)) (memo : Memo),
      List.Forall₂ (fun t l => memo.lookup t = some l) ts ls →
      resolveMask getAll memo ts = (memo, ls) := by
  intro ts ls memo h
  induction h with
  | nil => rfl
  | cons h1 h2 ih =>
    simp only [resolveMask, h1, ih]

lemma forall₂_exists_left {α β : Type} {R : α → β → Prop} :
    ∀ {as : List α} {bs : List β}, List.Forall₂ R as bs → ∀ b ∈ bs, ∃ a, R a b := by
  intro as bs h
  induction h with
  | nil =>
    intro b hb
    simp at hb
  | cons h1 h2 ih =>
    intro b hb
    rcases List.mem_cons.mp hb with rfl | hb
    · exact ⟨_, h1⟩
    · exact ih b hb

/-- C1: for every mask whose tokens all resolve in the `PasswordPattern`
class table to member lists `ls` (of sizes `k₁,…,kₙ`), the possibility count
of `PasswordPattern.calculate_security` equals `k₁×…×kₙ`, the search's
resolution step returns exactly those lists leaving the cache unchanged, and
the candidate enumeration — the product of the resolved lists, each tuple
joined with no delimiter — yields exactly `k₁×…×kₙ` candidate strings with
no duplicates. -/
theorem pp_security_enumeration_spec (getAll : String → List String) (mask : String)
    (ls : List (List String))
    (h : List.Forall₂ (fun t l => pp_memoize t = some l) (parse_mask mask) ls) :
    pp_calculate_security mask = some ((ls.map List.length).prod) ∧
    resolveMask getAll ppMemoList (parse_mask mask) = (ppMemoList, ls) ∧
    ((listProd ls).map joinStr).length = (ls.map List.length).prod ∧
    ((listProd ls).map joinStr).Nodup := by
  refine ⟨?_, ?_, ?_, ?_⟩
  · rw [pp_calculate_security, pp_calc_prod (parse_mask mask) ls h 1, one_mul]
  · exact resolveMask_of_cached getAll (parse_mask mask) ls ppMemoList h
  · rw [List.length_map, length_listProd]
  · refine joinProd_nodup ls ?_
    intro l hl
    obtain ⟨t, ht⟩ := forall₂_exists_left h l hl
    exact pp_memoize_spec t l ht

/-- Witness for C1 at the mask `digit digit` (possibility count 100). -/
theorem pp_security_enumeration_spec_witness :
    pp_calculate_security "digit digit"
        = some (([charClass digitChars, charClass digitChars].map List.length).prod) ∧
    resolveMask (fun _ => []) ppMemoList (parse_mask "digit digit")
        = (ppMemoList, [charClass digitChars, charClass digitChars]) ∧
    ((listProd [charClass digitChars, charClass digitChars]).map joinStr).length
        = ([charClass digitChars, charClass digitChars].map List.length).prod ∧
    ((listProd [charClass digitChars, charClass digitChars]).map joinStr).Nodup :=
  pp_security_enumeration_spec (fun _ => []) "digit digit"
    [charClass digitChars, charClass digitChars]
    (List.Forall₂.cons (by decide) (List.Forall₂.cons (by decide) List.Forall₂.nil))

end Entro
